import Mathlib

/-!
Verification of the multi-strategy skill/education extraction engine of the
Job-Matching-Website repository (src/data/extraction/...).

Strings are modelled as lists of characters (`Str`).  Python string
primitives used by the source (`str.lower`, `str.strip`, `str.split`,
substring containment, `re` searches for the concrete patterns appearing in
the source) are embedded as executable Lean functions on `Str`, restricted
to the ASCII fragment the reference data and patterns live in.

Python `set`/`dict` iteration order is unspecified; wherever the source
materialises a set into a list (`list(set(...))`) the model uses the
first-occurrence deduplication `List.dedup`.  Every externally visible
result of the modelled functions is produced by a final `sorted(...)`, so
the choice of that internal order is not observable.
-/

namespace JobMatching

/-- Strings, modelled as lists of characters. -/
abbrev Str := List Char

/-- Python regex `\s` / `str.strip` whitespace, ASCII fragment:
space, tab, newline, carriage return, vertical tab, form feed. -/
def isWsChar (c : Char) : Bool :=
  c = ' ' || c = '\t' || c = '\n' || c = '\r' || c = '\x0b' || c = '\x0c'

/-- ASCII decimal digit (Python regex `\d`, `str.isdigit`, ASCII fragment). -/
def isDigitChar (c : Char) : Bool :=
  '0' ≤ c && c ≤ '9'

/-- ASCII letter. -/
def isAlphaChar (c : Char) : Bool :=
  ('a' ≤ c && c ≤ 'z') || ('A' ≤ c && c ≤ 'Z')

/-- Python regex word character `\w` (ASCII fragment): letter, digit or underscore. -/
def isWordChar (c : Char) : Bool :=
  isAlphaChar c || isDigitChar c || c = '_'

/-- Letter or digit (the source's `^[a-zA-Z0-9]+$` test). -/
def isAlnumChar (c : Char) : Bool :=
  isAlphaChar c || isDigitChar c

/-- Uppercase→lowercase table for `str.lower` (ASCII fragment). -/
def lowerPairs : List (Char × Char) :=
  [('A','a'), ('B','b'), ('C','c'), ('D','d'), ('E','e'), ('F','f'),
   ('G','g'), ('H','h'), ('I','i'), ('J','j'), ('K','k'), ('L','l'),
   ('M','m'), ('N','n'), ('O','o'), ('P','p'), ('Q','q'), ('R','r'),
   ('S','s'), ('T','t'), ('U','u'), ('V','v'), ('W','w'), ('X','x'),
   ('Y','y'), ('Z','z')]

/-- Lowercase a single character (ASCII fragment of Python `str.lower`). -/
def lowerChar (c : Char) : Char :=
  ((lowerPairs.find? (fun p => p.1 = c)).map Prod.snd).getD c

/-- Python `str.lower` (ASCII fragment). -/
def low (s : Str) : Str := s.map lowerChar

/-- Python `str.strip()`: drop leading and trailing whitespace. -/
def stripWs (s : Str) : Str :=
  ((s.dropWhile isWsChar).reverse.dropWhile isWsChar).reverse

/-- Helper for `splitWs`; `cur` holds the current word reversed. -/
def splitWsAux (cur : Str) : Str → List Str
  | [] => if cur.isEmpty then [] else [cur.reverse]
  | c :: rest =>
    if isWsChar c then
      if cur.isEmpty then splitWsAux [] rest else cur.reverse :: splitWsAux [] rest
    else splitWsAux (c :: cur) rest

/-- Python `str.split()` with no argument: split on whitespace runs, no empty items. -/
def splitWs (s : Str) : List Str := splitWsAux [] s

/-- Helper for `collapseWs`: `prevWs` records whether the previous character
was part of an (already emitted) whitespace run. -/
def collapseWsAux (prevWs : Bool) : Str → Str
  | [] => []
  | c :: rest =>
    if isWsChar c then
      if prevWs then collapseWsAux true rest
      else ' ' :: collapseWsAux true rest
    else c :: collapseWsAux false rest

/-- Python `re.sub(r'\s+', ' ', s)`: collapse each whitespace run to one space. -/
def collapseWs (s : Str) : Str := collapseWsAux false s

/-- `isPrefixB s t`: `s` is a prefix of `t`. -/
def isPrefixB : Str → Str → Bool
  | [], _ => true
  | _ :: _, [] => false
  | a :: as, b :: bs => a = b && isPrefixB as bs

/-- Python substring containment `s in t` (contiguous). -/
def isSubstr (s : Str) : Str → Bool
  | [] => isPrefixB s []
  | c :: rest => isPrefixB s (c :: rest) || isSubstr s rest

/-- Lexicographic comparison of strings by character code
(Python `<=` on `str`, used to model `sorted(...)`). -/
def strLe : Str → Str → Bool
  | [], _ => true
  | _ :: _, [] => false
  | a :: as, b :: bs => if a = b then strLe as bs else decide (a < b)

/-- `strLe` as a relation. -/
def strLeRel (a b : Str) : Prop := strLe a b = true

instance : DecidableRel strLeRel :=
  fun a b => inferInstanceAs (Decidable (strLe a b = true))

/-- "`b` is at most as long as `a`": the order of
`sorted(skills, key=len, reverse=True)`. -/
def lenGeRel (a b : Str) : Prop := b.length ≤ a.length

instance : DecidableRel lenGeRel :=
  fun a b => inferInstanceAs (Decidable (b.length ≤ a.length))

/-- Python `sorted(strings)`: stable sort by `strLe` (insertion sort — the
stable sort with the same observable behaviour as Python's). -/
def sortLex (l : List Str) : List Str := List.insertionSort strLeRel l

/-- Python `sorted(strings, key=len, reverse=True)`: stable sort, longest first. -/
def sortLenDesc (l : List Str) : List Str := List.insertionSort lenGeRel l

section Deduplicator

/-! ## Deduplicator (src/data/extraction/postprocessing/deduplicator.py)

The synonym map (`skill_synonyms.json`: main term → list of alternates,
iterated in insertion order) is a parameter `syn`. -/

/-- A synonym map: ordered association list, main term → alternate surface forms. -/
abbrev SynMap := List (Str × List Str)

/-- The loop body of `Deduplicator._merge_synonyms` for one skill: the first
map entry whose lowercased main term equals the skill or whose lowercased
alternates contain it, if any, yields the lowercased main term (`canonical`). -/
def findCanonical (syn : SynMap) (skill : Str) : Option Str :=
  (syn.find? (fun e => skill == low e.1 || (e.2.map low).contains skill)).map
    (fun e => low e.1)

/-- `canonical if canonical else skill` from `Deduplicator._merge_synonyms`. -/
def canonicalize (syn : SynMap) (skill : Str) : Str :=
  (findCanonical syn skill).getD skill

/-- `Deduplicator._merge_synonyms`: canonicalize every skill, collect into a set. -/
def mergeSynonyms (syn : SynMap) (skills : List Str) : List Str :=
  (skills.map (canonicalize syn)).dedup

/-- Step 1 of `Deduplicator.deduplicate`: `list(set(skill.lower() for skill in skills))`. -/
def uniqueLower (skills : List Str) : List Str :=
  (skills.map low).dedup

/-- The word-set subset test of `Deduplicator._remove_substrings`:
`set(skill.split()).issubset(set(longer_skill.split()))`. -/
def wordsSubset (s t : Str) : Bool :=
  (splitWs s).all (fun w => (splitWs t).contains w)

/-- The condition under which `_remove_substrings` drops `s` against a longer
skill `t`: `s in t and s != t` and the word set of `s` is a subset of the
word set of `t`. -/
def dropTest (s t : Str) : Bool :=
  isSubstr s t && s ≠ t && wordsSubset s t

/-- The loop of `Deduplicator._remove_substrings`: each skill is kept unless
`dropTest` holds against some earlier element of the length-sorted list
(`sorted_skills[:i]`, accumulated in `prev`). -/
def rsAux (prev : List Str) : List Str → List Str
  | [] => []
  | s :: rest =>
    if prev.any (fun t => dropTest s t) then rsAux (prev ++ [s]) rest
    else s :: rsAux (prev ++ [s]) rest

/-- `Deduplicator._remove_substrings`. -/
def removeSubstrings (skills : List Str) : List Str :=
  rsAux [] (sortLenDesc skills)

/-- `Deduplicator.deduplicate`: exact-duplicate removal, synonym merge,
substring removal, then `sorted(...)`. -/
def deduplicate (syn : SynMap) (skills : List Str) : List Str :=
  if skills.isEmpty then []
  else sortLex (removeSubstrings (mergeSynonyms syn (uniqueLower skills)))

end Deduplicator

section TextUtils

/-! ## Text utilities (src/data/extraction/utils/text_utils.py) -/

/-- `normalize_text`: lowercase, collapse whitespace runs to one space, strip. -/
def normalizeText (t : Str) : Str :=
  if t.isEmpty then [] else stripWs (collapseWs (low t))

/-- The character class kept by `clean_skill`: word characters, whitespace,
hyphen, slash, dot, plus, hash, ampersand; its `re.sub` deletes every other
character. -/
def cleanSkillCharOk (c : Char) : Bool :=
  isWordChar c || isWsChar c || c = '-' || c = '/' || c = '.' ||
    c = '+' || c = '#' || c = '&'

/-- `clean_skill`: delete characters outside the kept class, collapse
whitespace runs to one space, strip. -/
def cleanSkill (s : Str) : Str :=
  if s.isEmpty then [] else stripWs (collapseWs (s.filter cleanSkillCharOk))

end TextUtils

namespace Normalizer

/-! ## Normalizer (src/data/extraction/postprocessing/normalizer.py) -/

/-- `Normalizer.normalize`: clean and normalize each skill, skip empty or
shorter than two characters, collect into a set, return sorted. -/
def normalize (skills : List Str) : List Str :=
  sortLex ((skills.filterMap (fun sk =>
    let n := normalizeText (cleanSkill sk)
    if n.isEmpty || n.length < 2 then none else some n)).dedup)

end Normalizer

namespace Validator

/-! ## Validator (src/data/extraction/postprocessing/validator.py)

The blacklist (`blacklist.json`, flattened and lowercased at load) is the
parameter `blacklist`. -/

/-- `EnhancedExtractionConfig.MIN_SKILL_LENGTH`. -/
def minSkillLength : Nat := 2

/-- `EnhancedExtractionConfig.MAX_SKILL_LENGTH`. -/
def maxSkillLength : Nat := 60

/-- `str.endswith`. -/
def isSuffixB (s t : Str) : Bool := isPrefixB s.reverse t.reverse

/-- The `location_words` list of `Validator._is_valid_skill`. -/
def locationWords : List Str :=
  ["khan".data, "sangkat".data, "phum".data, "boeng".data, "chbar".data,
   "ampov".data, "chhuk".data, "nirouth".data, "chamkar".data, "daun".data,
   "penh".data, "phnom".data, "location".data, "academy".data, "aupp".data,
   "liger".data]

/-- The `job_role_indicators` list of `Validator._is_valid_skill`. -/
def jobRoleIndicators : List Str :=
  ["supervisor".data, "manager".data, "director".data, "coordinator".data,
   "educator".data, "officer".data, "assistant".data, "executive".data]

/-- The `single_word_rejects` list of `Validator._is_valid_skill`. -/
def singleWordRejects : List Str :=
  ["caring".data, "inclusive".data, "mental".data, "emotional".data,
   "physical".data, "psychological".data, "professional".data,
   "positive".data, "negative".data, "preparing".data, "scheduling".data,
   "requirement".data, "etc..".data, "including".data, "determination".data,
   "optimism".data, "stewardship".data, "ingenuity".data,
   "responsibility".data, "from".data, "go".data, "able".data]

/-- The `generic_single` list of `Validator._is_valid_skill`. -/
def genericSingle : List Str :=
  ["and".data, "or".data, "the".data, "for".data, "with".data, "from".data,
   "into".data, "go".data]

/-- `Validator._is_valid_skill`: the ordered short-circuiting reject
predicates, applied to `skill.lower().strip()`. -/
def isValidSkill (blacklist : List Str) (skill : Str) : Bool :=
  let s := stripWs (low skill)
  if s.length < minSkillLength then false
  else if maxSkillLength < s.length then false
  else if blacklist.contains s then false
  else if blacklist.any (fun b => isSubstr b s && decide (5 < b.length)) then false
  else if !s.isEmpty && s.all isDigitChar then false
  else if isSubstr "@".data s || isSubstr ".com".data s || isSubstr ".net".data s then false
  else if isPrefixB "and ".data s || isPrefixB "or ".data s || isPrefixB "the ".data s
      || isPrefixB "a ".data s || isPrefixB "an ".data s then false
  else if isSuffixB ".".data s || isSuffixB "!".data s || isSuffixB "?".data s
      || isSuffixB ",".data s then false
  else if isSubstr "no.".data s || isSubstr "no ".data s then false
  else if locationWords.any (fun w => isSubstr w s) then false
  else if jobRoleIndicators.any (fun r => isSuffixB r s) then false
  else if singleWordRejects.contains s then false
  else if isSubstr "  ".data s then false
  else if 5 < (splitWs s).length then false
  else if isSubstr " and ".data s && 2 < (splitWs s).length then false
  else if (splitWs s).length = 1 && s.length < 5 && genericSingle.contains s then false
  else true

/-- `Validator.validate`: keep the skills passing `_is_valid_skill`. -/
def validate (blacklist : List Str) (skills : List Str) : List Str :=
  skills.filter (isValidSkill blacklist)

end Validator

namespace EnhancedSkillsExtractor

/-! ## Skills extractor orchestration (src/data/extraction/skills_extractor_v3.py)

The six strategies are independent analyzers of the input text; four of them
wrap external resources or capabilities (vocabulary files, KeyBERT, spaCy).
The orchestration (`extract`, `_aggregate_results`) treats each strategy as
an opaque `text → candidate list` function, so the model takes them as the
parameters of `SkillsDeps`, together with the loaded synonym map and
blacklist reference data. -/

/-- The strategy functions and reference data `EnhancedSkillsExtractor`
composes. -/
structure SkillsDeps where
  regexStrategy : Str → List Str
  sectionStrategy : Str → List Str
  keybertStrategy : Str → List Str
  nerStrategy : Str → List Str
  directScan : Str → List Str
  softSkills : Str → List Str
  synonyms : SynMap
  blacklist : List Str

/-- Steps 1–3 of `extract`: the `results` dict, keys in insertion order. -/
def skillsResults (d : SkillsDeps) (text : Str) : List (Str × List Str) :=
  [("regex".data, d.regexStrategy text),
   ("section".data, d.sectionStrategy text),
   ("keybert".data, d.keybertStrategy text),
   ("ner".data, d.nerStrategy text),
   ("direct_scan".data, d.directScan text),
   ("soft_skills".data, d.softSkills text)]

/-- Insert-or-accumulate into the `skill_scores` dict (association list in
insertion order, the iteration order of a Python dict). -/
def upsert (k : Str) (w : Nat) : List (Str × Nat) → List (Str × Nat)
  | [] => [(k, w)]
  | p :: rest => if p.1 = k then (p.1, p.2 + w) :: rest else p :: upsert k w rest

/-- The score accumulation loop of `_aggregate_results`, generalized over the
per-strategy weight table. -/
def aggregateScores (weights : Str → Nat) (results : List (Str × List Str)) :
    List (Str × Nat) :=
  results.foldl (fun sc r => r.2.foldl (fun sc2 sk => upsert (low sk) (weights r.1) sc2) sc) []

/-- The fixed `weights` dict of `_aggregate_results` (`weights.get(strategy, 1)`). -/
def defaultWeights (strategy : Str) : Nat :=
  if strategy = "regex".data then 12
  else if strategy = "direct_scan".data then 11
  else if strategy = "section".data then 9
  else if strategy = "keybert".data then 6
  else if strategy = "ner".data then 5
  else if strategy = "soft_skills".data then 4
  else 1

/-- `EnhancedSkillsExtractor._aggregate_results`: returns
`list(skill_scores.keys())` — the unique lowercased proposed strings, scores
discarded. -/
def aggregateResults (results : List (Str × List Str)) : List Str :=
  (aggregateScores defaultWeights results).map Prod.fst

/-- `EnhancedSkillsExtractor.extract`: empty-input guard, strategies,
aggregation, then the normalize → validate → deduplicate pipeline. -/
def extract (d : SkillsDeps) (text : Str) : List Str :=
  if text.isEmpty then []
  else
    deduplicate d.synonyms
      (Validator.validate d.blacklist
        (Normalizer.normalize (aggregateResults (skillsResults d text))))

end EnhancedSkillsExtractor

section RegexSearch

/-! ## Search combinators

`re.search` semantics for the concrete patterns of the source: a pattern
matches the text iff its match predicate holds at some start position
(every suffix of the text, including the empty one).  Each `re` pattern used
by the source is hand-compiled into a predicate built from these
combinators; `\s+` and `\d+` are compiled with maximal munch, which is
equivalent to the backtracking semantics here because in every source
pattern the piece after `\s+`/`\d+` cannot consume a whitespace/digit. -/

/-- Does `p` hold at some start position of the text (suffixes, including
the empty suffix at the end — `re.search` tries every position)? -/
def searchPos (p : Str → Bool) : Str → Bool
  | [] => p []
  | c :: rest => p (c :: rest) || searchPos p rest

/-- Match a literal, then continue on the rest. -/
def litThen (w : Str) (cont : Str → Bool) (t : Str) : Bool :=
  isPrefixB w t && cont (t.drop w.length)

/-- Match `\s+` (one or more whitespace), then continue. -/
def wsThen (cont : Str → Bool) (t : Str) : Bool :=
  !(t.takeWhile isWsChar).isEmpty && cont (t.dropWhile isWsChar)

/-- Match `\d+` (one or more digits), then continue. -/
def digitsThen (cont : Str → Bool) (t : Str) : Bool :=
  !(t.takeWhile isDigitChar).isEmpty && cont (t.dropWhile isDigitChar)

/-- Trivial continuation: the rest of the pattern is empty. -/
def anyTail (_ : Str) : Bool := true

/-- A `\b` placed after a word character: the next character must not be a
word character (or the text ends). -/
def atWordEnd : Str → Bool
  | [] => true
  | c :: _ => !isWordChar c

/-- Plain substring search (a pattern alternative with no metacharacters). -/
def searchLit (w : Str) (t : Str) : Bool := searchPos (litThen w anyTail) t

/-- Search, also tracking the character just before the current position
(for leading-boundary checks); `prev = none` at the start of the text. -/
def searchPosPrev (p : Option Char → Str → Bool) (prev : Option Char) :
    Str → Bool
  | [] => p prev []
  | c :: rest => p prev (c :: rest) || searchPosPrev p (some c) rest

end RegexSearch

namespace RegexMatcher

/-! ## Known-term matcher (src/data/extraction/strategies/regex_matcher.py) -/

/-- A `\b` placed before a word character: the previous character must not
be a word character (or the match is at the start). -/
def wbBefore : Option Char → Bool
  | none => true
  | some c => !isWordChar c

/-- `re.match(r'^[a-zA-Z0-9]+$', skill)`: purely alphanumeric skill. -/
def isSimpleAlnum (s : Str) : Bool := !s.isEmpty && s.all isAlnumChar

/-- Match of the simple pattern `\b<skill>\b` at one position. -/
def matchSimpleAt (w : Str) (prev : Option Char) (t : Str) : Bool :=
  wbBefore prev && litThen w atWordEnd t

/-- Search for `\b<skill>\b`. -/
def searchSimple (w t : Str) : Bool := searchPosPrev (matchSimpleAt w) none t

/-- The boundary class `[\s,;(]` allowed before a complex term. -/
def complexPre (c : Char) : Bool := isWsChar c || c = ',' || c = ';' || c = '('

/-- The boundary class `[\s,;)]` allowed after a complex term. -/
def complexPost (c : Char) : Bool := isWsChar c || c = ',' || c = ';' || c = ')'

/-- `(?:^|[\s,;(])` before a complex term. -/
def complexBefore : Option Char → Bool
  | none => true
  | some c => complexPre c

/-- `(?:[\s,;)]|$)` after a complex term. -/
def complexAfter : Str → Bool
  | [] => true
  | c :: _ => complexPost c

/-- Match of the complex-term pattern at one position. -/
def matchComplexAt (w : Str) (prev : Option Char) (t : Str) : Bool :=
  complexBefore prev && litThen w complexAfter t

/-- Search for `(?:^|[\s,;(])(<skill>)(?:[\s,;)]|$)`. -/
def searchComplex (w t : Str) : Bool := searchPosPrev (matchComplexAt w) none t

/-- Does the compiled pattern of `skill` match the lowercased text?  Simple
alphanumeric skills get `\b` anchors, other skills the whitespace/punctuation
boundary classes. -/
def skillMatches (skill textLower : Str) : Bool :=
  if isSimpleAlnum skill then searchSimple skill textLower
  else searchComplex skill textLower

/-- `FileNotFoundError` from `open` on an absent resource file. -/
inductive LoadError
  | fileNotFound

/-- Parsed content of `technical_skills.json`: category → list of skills. -/
abbrev SkillsData := List (Str × List Str)

/-- `RegexMatcher._load_skills_database`: `open(TECHNICAL_SKILLS_FILE)` has
no exception handler, so an absent file propagates `FileNotFoundError`; a
present file yields the flattened, lowercased vocabulary set. -/
def loadSkillsDatabase : Option SkillsData → Except LoadError (List Str)
  | none => .error .fileNotFound
  | some data => .ok (((data.foldr (fun e acc => e.2 ++ acc) []).map low).dedup)

/-- `RegexMatcher.__init__`: its only effect is `_load_skills_database`. -/
def init (file : Option SkillsData) : Except LoadError (List Str) :=
  loadSkillsDatabase file

/-- `RegexMatcher.extract` with vocabulary `vocab` (`self.skills_db`;
patterns are compiled longest-first, which does not affect the returned
set): all vocabulary terms whose pattern matches the lowercased text,
sorted. -/
def extract (vocab : List Str) (text : Str) : List Str :=
  if text.isEmpty then []
  else sortLex (((sortLenDesc vocab).filter (fun sk => skillMatches sk (low text))).dedup)

end RegexMatcher

namespace EnhancedEducationExtractor

/-! ## Education extractor (src/data/extraction/education_extractor_v3.py)

The five `EDUCATION_LEVEL_PATTERNS` of
`EnhancedExtractionConfig` (src/data/extraction/config.py) are hand-compiled
below; the dict is iterated in insertion order.  The patterns are
lowercase and are searched in the lowercased text, so `re.IGNORECASE` is
inert. -/

/-- `"high school"` pattern:
`high\s+school | secondary\s+school | diploma(?!\s+in) | form\s+\d+ | grade\s+12`. -/
def hsPattern (t : Str) : Bool :=
  searchPos (litThen "high".data (wsThen (litThen "school".data anyTail))) t ||
  searchPos (litThen "secondary".data (wsThen (litThen "school".data anyTail))) t ||
  searchPos (litThen "diploma".data
    (fun u => !(wsThen (litThen "in".data anyTail) u))) t ||
  searchPos (litThen "form".data (wsThen (digitsThen anyTail))) t ||
  searchPos (litThen "grade".data (wsThen (litThen "12".data anyTail))) t

/-- `"associate"` pattern:
`associate'?s?\s+degree | a\.s\. | associate\s+in`. -/
def associatePattern (t : Str) : Bool :=
  (["associate".data, "associate'".data, "associates".data, "associate's".data].any
    (fun v => searchPos (litThen v (wsThen (litThen "degree".data anyTail))) t)) ||
  searchLit "a.s.".data t ||
  searchPos (litThen "associate".data (wsThen (litThen "in".data anyTail))) t

/-- The `ba\b` alternative of the bachelor's pattern: an occurrence of
`ba` followed by a word boundary, with no leading boundary required. -/
def baWordEnd (t : Str) : Bool := searchPos (litThen "ba".data atWordEnd) t

/-- `"bachelor's degree"` pattern: `bachelor'?s?\s+(?:degree|diploma)? |
ba\b | b\.s\b | b\.sc\b | bs\s+degree | bachelor\s+(?:in|of) | beng | bsc |
undergraduate\s+degree` (the optional `(?:degree|diploma)?` does not
constrain the match). -/
def bachelorPattern (t : Str) : Bool :=
  (["bachelor".data, "bachelor'".data, "bachelors".data, "bachelor's".data].any
    (fun v => searchPos (litThen v (wsThen anyTail)) t)) ||
  baWordEnd t ||
  searchPos (litThen "b.s".data atWordEnd) t ||
  searchPos (litThen "b.sc".data atWordEnd) t ||
  searchPos (litThen "bs".data (wsThen (litThen "degree".data anyTail))) t ||
  searchPos (litThen "bachelor".data (wsThen
    (fun u => litThen "in".data anyTail u || litThen "of".data anyTail u))) t ||
  searchLit "beng".data t ||
  searchLit "bsc".data t ||
  searchPos (litThen "undergraduate".data (wsThen (litThen "degree".data anyTail))) t

/-- `"master's degree"` pattern: `master'?s?\s+(?:degree|diploma)? | msc |
m\.s\b | m\.sc\b | graduate\s+degree | ma\b | master\s+(?:in|of) |
postgraduate\s+degree | mba | meng`. -/
def masterPattern (t : Str) : Bool :=
  (["master".data, "master'".data, "masters".data, "master's".data].any
    (fun v => searchPos (litThen v (wsThen anyTail)) t)) ||
  searchLit "msc".data t ||
  searchPos (litThen "m.s".data atWordEnd) t ||
  searchPos (litThen "m.sc".data atWordEnd) t ||
  searchPos (litThen "graduate".data (wsThen (litThen "degree".data anyTail))) t ||
  searchPos (litThen "ma".data atWordEnd) t ||
  searchPos (litThen "master".data (wsThen
    (fun u => litThen "in".data anyTail u || litThen "of".data anyTail u))) t ||
  searchPos (litThen "postgraduate".data (wsThen (litThen "degree".data anyTail))) t ||
  searchLit "mba".data t ||
  searchLit "meng".data t

/-- `"phd"` pattern: `ph\.?d\.? | doctorate | doctoral |
doctor\s+of\s+philosophy` (the trailing optional dot does not constrain
the match, so `ph\.?d\.?` is containment of `phd` or `ph.d`). -/
def phdPattern (t : Str) : Bool :=
  searchLit "phd".data t || searchLit "ph.d".data t ||
  searchLit "doctorate".data t || searchLit "doctoral".data t ||
  searchPos (litThen "doctor".data (wsThen (litThen "of".data
    (wsThen (litThen "philosophy".data anyTail))))) t

/-- `EnhancedExtractionConfig.EDUCATION_LEVEL_PATTERNS`, in insertion order. -/
def levelPatterns : List (Str × (Str → Bool)) :=
  [("high school".data, hsPattern),
   ("associate".data, associatePattern),
   ("bachelor's degree".data, bachelorPattern),
   ("master's degree".data, masterPattern),
   ("phd".data, phdPattern)]

/-- The first loop of `_extract_level_enhanced`: first matching pattern
wins, patterns checked in declaration order. -/
def levelFromPatterns (t : Str) : Option Str :=
  (levelPatterns.find? (fun e => e.2 t)).map Prod.fst

/-- The `if "degree" in text:` context-inference block of
`_extract_level_enhanced`. -/
def degreeContextLevel (t : Str) : Option Str :=
  if isSubstr "degree".data t then
    if (["3 year".data, "4 year".data, "4-year".data, "three year".data,
         "four year".data].any (fun y => isSubstr y t)) then
      some "bachelor's degree".data
    else if (["2 year".data, "2-year".data, "two year".data].any
        (fun y => isSubstr y t)) then
      some "associate".data
    else if (["graduate degree".data, "postgraduate".data,
        "post-graduate".data].any (fun y => isSubstr y t)) then
      (if isSubstr "phd".data t || isSubstr "doctoral".data t then some "phd".data
       else some "master's degree".data)
    else none
  else none

/-- The implicit-bachelor check of `_extract_level_enhanced`. -/
def implicitBachelor (t : Str) : Bool :=
  ["bachelor".data, "undergraduate".data, "4 years".data].any
    (fun p => isSubstr p t)

/-- `EnhancedEducationExtractor._extract_level_enhanced` (its argument is
the already-lowercased text). -/
def extractLevelEnhanced (t : Str) : Option Str :=
  match levelFromPatterns t with
  | some lv => some lv
  | none =>
    match degreeContextLevel t with
    | some lv => some lv
    | none => if implicitBachelor t then some "bachelor's degree".data else none

/-- The ordered keyword checks parsing the language model's free-text level
answer in `_extract_with_llm` (lines 201–210), on the stripped lowercased
answer. -/
def parseLLMLevelKeywords (t : Str) : Option Str :=
  if isSubstr "bachelor".data t || isSubstr "ba".data t || isSubstr "bs".data t
      || isSubstr "undergraduate".data t then some "bachelor's degree".data
  else if isSubstr "master".data t || isSubstr "ms".data t || isSubstr "ma".data t
      || isSubstr "postgraduate".data t then some "master's degree".data
  else if isSubstr "phd".data t || isSubstr "doctorate".data t
      || isSubstr "doctoral".data t then some "phd".data
  else if isSubstr "high school".data t || isSubstr "secondary".data t then
    some "high school".data
  else if isSubstr "associate".data t then some "associate".data
  else none

/-- Parsing of the level answer: `strip().lower()` then the keyword checks. -/
def parseLLMLevel (resp : Str) : Option Str :=
  parseLLMLevelKeywords (low (stripWs resp))

/-- The answers treated as "no major" by `_extract_with_llm`. -/
def llmNoAnswerMajors : List Str :=
  ["none".data, "not specified".data, "any".data, "n/a".data,
   "not mentioned".data]

/-- What `EnhancedEducationExtractor` composes: the multi-strategy major
extractor `_extract_major_enhanced` (a pure function of the input text and
the loaded taxonomy), the external language model (`none` = pipeline
unavailable or generation failed; `some (levelAnswer, majorAnswer)` = the
two generated texts), and the major cleaning/validation routines. -/
structure EduDeps where
  majorEnhanced : Str → Option Str
  llmGen : Option (Str × Str)
  cleanMajor : Str → Option Str
  validateMajor : Str → Option Str

/-- `EnhancedEducationExtractor._extract_with_llm`: `(None, None)` when the
language model is unavailable; otherwise the parsed level answer and the
cleaned major answer (unless it is a no-answer phrase). -/
def extractWithLLM (d : EduDeps) : Option Str × Option Str :=
  match d.llmGen with
  | none => (none, none)
  | some (lt, mt) =>
    let level := parseLLMLevel lt
    let mtS := stripWs mt
    let major :=
      if !mtS.isEmpty && !(llmNoAnswerMajors.contains (low mtS)) then
        d.cleanMajor mtS
      else none
    (level, major)

/-- Step 3 of `EnhancedEducationExtractor.extract`: `_extract_with_llm` is
invoked when `not level or not major`, and each primary result is kept when
present (`level = level or level_llm`, `major = major or major_llm`). -/
def applyLLMFallback (d : EduDeps) (level0 major0 : Option Str) :
    Option Str × Option Str :=
  if level0.isNone || major0.isNone then
    (if level0.isSome then level0 else (extractWithLLM d).1,
     if major0.isSome then major0 else (extractWithLLM d).2)
  else (level0, major0)

/-- `EnhancedEducationExtractor.extract`: empty-input guard; primary level
and major extraction; the LLM fallback when either is missing; final major
cleaning and validation (`_validate_major` of a `None` major is `None`). -/
def extract (d : EduDeps) (text : Str) : Option Str × Option Str :=
  if text.isEmpty then (none, none)
  else
    let lm := applyLLMFallback d (extractLevelEnhanced (low text))
      (d.majorEnhanced text)
    (lm.1, (lm.2.bind d.cleanMajor).bind d.validateMajor)

/-- The exact condition under which `extract` invokes `_extract_with_llm`:
the text is nonempty (otherwise `extract` returns early) and
`not level or not major` holds for the primary results (line 72). -/
def llmFallbackInvoked (d : EduDeps) (text : Str) : Bool :=
  !text.isEmpty &&
    ((extractLevelEnhanced (low text)).isNone || (d.majorEnhanced text).isNone)

end EnhancedEducationExtractor

section ClaimData

/-! ## Derived predicates and concrete instances used by the claims -/

/-- The five education-level labels (`EDUCATION_LEVEL_PATTERNS` keys, which
are also the only level constants assigned anywhere in
`EnhancedEducationExtractor`). -/
def levelLabels : List Str :=
  ["high school".data, "associate".data, "bachelor's degree".data,
   "master's degree".data, "phd".data]

/-- The blacklist/length part of the Extraction Result invariant: the entry
is not a blacklist member, contains no blacklist phrase longer than five
characters, and its length lies within the configured skill-length range. -/
def validCore (blacklist : List Str) (e : Str) : Bool :=
  !(blacklist.contains e) &&
  !(blacklist.any (fun b => isSubstr b e && decide (5 < b.length))) &&
  decide (Validator.minSkillLength ≤ e.length) &&
  decide (e.length ≤ Validator.maxSkillLength)

/-- The key set produced by one `skill_scores` dict insertion: dict keys are
kept in insertion order, a present key keeps its position. -/
def keyInsert (ks : List Str) (k : Str) : List Str :=
  if k ∈ ks then ks else ks ++ [k]

/-- The key order of the `skill_scores` dict of `_aggregate_results`,
computed without the scores. -/
def aggregateKeys (results : List (Str × List Str)) : List Str :=
  results.foldl (fun ks r => r.2.foldl (fun ks2 sk => keyInsert ks2 (low sk)) ks) []

/-- Education dependencies with no major ever extracted and no language
model available. -/
def eduDepsNone : EnhancedEducationExtractor.EduDeps :=
  { majorEnhanced := fun _ => none
    llmGen := none
    cleanMajor := fun _ => none
    validateMajor := fun _ => none }

/-- Skill-extractor dependencies where every strategy returns nothing and
the reference data is empty. -/
def skillsDepsEmpty : EnhancedSkillsExtractor.SkillsDeps :=
  { regexStrategy := fun _ => []
    sectionStrategy := fun _ => []
    keybertStrategy := fun _ => []
    nerStrategy := fun _ => []
    directScan := fun _ => []
    softSkills := fun _ => []
    synonyms := []
    blacklist := [] }

/-- A 61-character canonical main term (one character beyond
`MAX_SKILL_LENGTH`). -/
def longMain : Str := List.replicate 61 'x'

/-- Skill-extractor dependencies whose synonym map sends the valid skill
`"python"` to the over-long canonical term `longMain`; only the known-term
strategy proposes anything. -/
def skillsDepsLongSyn : EnhancedSkillsExtractor.SkillsDeps :=
  { regexStrategy := fun _ => ["python".data]
    sectionStrategy := fun _ => []
    keybertStrategy := fun _ => []
    nerStrategy := fun _ => []
    directScan := fun _ => []
    softSkills := fun _ => []
    synonyms := [(longMain, ["python".data])]
    blacklist := [] }

/-- Skill-extractor dependencies where only the known-term strategy proposes
anything (`"python"`), with empty reference data. -/
def skillsDepsPython : EnhancedSkillsExtractor.SkillsDeps :=
  { regexStrategy := fun _ => ["python".data]
    sectionStrategy := fun _ => []
    keybertStrategy := fun _ => []
    nerStrategy := fun _ => []
    directScan := fun _ => []
    softSkills := fun _ => []
    synonyms := []
    blacklist := [] }

/-- A synonym map in which the main term `"b"` is itself an alternate of the
main term `"c"`, so canonicalization is not idempotent on it. -/
def synChain : SynMap := [("c".data, ["b".data]), ("b".data, ["a".data])]

/-- A well-behaved synonym map: one main term, not an alternate of anything. -/
def synMsOffice : SynMap := [("microsoft office".data, ["ms office".data])]

end ClaimData

section BasicLemmas

/-! ## Basic lemmas about the string primitives -/

/-- If no uppercase letter equals `c`, then `lowerChar` fixes `c`. -/
theorem lowerChar_fix_of_none {c : Char}
    (h : lowerPairs.find? (fun p => p.1 = c) = none) : lowerChar c = c := by
  simp [lowerChar, h]

/-- No lowercase image appears as an uppercase key of the table. -/
theorem lowerPairs_snd_fixed :
    lowerPairs.all (fun p => (lowerPairs.find? (fun q => q.1 = p.2)).isNone) = true := by
  decide

/-- `lowerChar` is idempotent. -/
theorem lowerChar_idem (c : Char) : lowerChar (lowerChar c) = lowerChar c := by
  cases hf : lowerPairs.find? (fun p => p.1 = c) with
  | none =>
    have hfix := lowerChar_fix_of_none hf
    rw [hfix, hfix]
  | some p =>
    have hp : p ∈ lowerPairs := List.mem_of_find?_eq_some hf
    have h1 : lowerChar c = p.2 := by simp [lowerChar, hf]
    have h2 : lowerPairs.find? (fun q => q.1 = p.2) = none := by
      have := List.all_eq_true.mp lowerPairs_snd_fixed p hp
      simpa using this
    rw [h1, lowerChar_fix_of_none h2]

/-- `low` is idempotent. -/
theorem low_idem (s : Str) : low (low s) = low s := by
  simp only [low, List.map_map]
  exact List.map_congr_left (fun a _ => lowerChar_idem a)

/-- A string all of whose characters are `lowerChar`-fixed is `low`-fixed. -/
theorem low_fixed_of_mem {s : Str} (h : ∀ c ∈ s, lowerChar c = c) : low s = s := by
  have : s.map lowerChar = s.map id := List.map_congr_left h
  simpa [low] using this

/-- `strLe` is total. -/
theorem strLe_total : ∀ (a b : Str), (strLe a b || strLe b a) = true
  | [], _ => by simp [strLe]
  | _ :: _, [] => by simp [strLe]
  | a :: as, b :: bs => by
    by_cases hab : a = b
    · subst hab
      simpa [strLe] using strLe_total as bs
    · have hba : ¬(b = a) := fun h => hab h.symm
      simp only [strLe, if_neg hab, if_neg hba, Bool.or_eq_true, decide_eq_true_eq]
      exact lt_or_gt_of_ne hab

/-- `strLe` is transitive. -/
theorem strLe_trans : ∀ {a b c : Str},
    strLe a b = true → strLe b c = true → strLe a c = true
  | [], _, _ => fun _ _ => by simp [strLe]
  | _ :: _, [], _ => fun h _ => by simp [strLe] at h
  | _ :: _, _ :: _, [] => fun _ h => by simp [strLe] at h
  | a :: as, b :: bs, c :: cs => fun h1 h2 => by
    by_cases hab : a = b <;> by_cases hbc : b = c
    · subst hab; subst hbc
      simp only [strLe, if_pos rfl] at h1 h2 ⊢
      exact strLe_trans h1 h2
    · subst hab
      simp only [strLe, if_pos rfl, if_neg hbc] at h1 h2 ⊢
      exact h2
    · subst hbc
      simp only [strLe, if_neg hab] at h1 ⊢
      exact h1
    · simp only [strLe, if_neg hab, if_neg hbc, decide_eq_true_eq] at h1 h2
      have hac : a < c := lt_trans h1 h2
      simp only [strLe, if_neg (ne_of_lt hac), decide_eq_true_eq]
      exact hac

/-- `strLe` is antisymmetric. -/
theorem strLe_antisymm : ∀ {a b : Str},
    strLe a b = true → strLe b a = true → a = b
  | [], [] => fun _ _ => rfl
  | [], _ :: _ => fun _ h => by simp [strLe] at h
  | _ :: _, [] => fun h _ => by simp [strLe] at h
  | a :: as, b :: bs => fun h1 h2 => by
    by_cases hab : a = b
    · subst hab
      simp only [strLe, if_pos rfl] at h1 h2
      rw [strLe_antisymm h1 h2]
    · have hba : ¬(b = a) := fun h => hab h.symm
      simp only [strLe, if_neg hab, if_neg hba, decide_eq_true_eq] at h1 h2
      exact absurd h2 (lt_asymm h1)

instance : IsTotal Str strLeRel :=
  ⟨fun a b => by
    have h := strLe_total a b
    rcases Bool.or_eq_true _ _ |>.mp h with h1 | h1
    · exact Or.inl h1
    · exact Or.inr h1⟩

instance : IsTrans Str strLeRel :=
  ⟨fun _ _ _ h1 h2 => strLe_trans h1 h2⟩

instance : IsAntisymm Str strLeRel :=
  ⟨fun _ _ h1 h2 => strLe_antisymm h1 h2⟩

instance : IsTotal Str lenGeRel :=
  ⟨fun a b => (Nat.le_total b.length a.length).imp id id⟩

instance : IsTrans Str lenGeRel :=
  ⟨fun _ _ _ h1 h2 => Nat.le_trans h2 h1⟩

/-- `sortLex` permutes its input. -/
theorem sortLex_perm (l : List Str) : (sortLex l).Perm l :=
  List.perm_insertionSort strLeRel l

/-- `sortLex` sorts. -/
theorem sortLex_sorted (l : List Str) : List.Sorted strLeRel (sortLex l) :=
  List.sorted_insertionSort strLeRel l

/-- `sortLenDesc` permutes its input. -/
theorem sortLenDesc_perm (l : List Str) : (sortLenDesc l).Perm l :=
  List.perm_insertionSort lenGeRel l

/-- `sortLenDesc` sorts by nonincreasing length. -/
theorem sortLenDesc_sorted (l : List Str) : List.Sorted lenGeRel (sortLenDesc l) :=
  List.sorted_insertionSort lenGeRel l

/-- Sorting two permuted lists lexicographically gives the same list. -/
theorem sortLex_eq_of_perm {l l' : List Str} (h : l.Perm l') :
    sortLex l = sortLex l' :=
  List.eq_of_perm_of_sorted
    (((sortLex_perm l).trans h).trans (sortLex_perm l').symm)
    (sortLex_sorted l) (sortLex_sorted l')

/-- A prefix is at most as long as the whole. -/
theorem isPrefixB_length : ∀ {s t : Str}, isPrefixB s t = true → s.length ≤ t.length
  | [], _ => fun _ => Nat.zero_le _
  | _ :: _, [] => fun h => by simp [isPrefixB] at h
  | a :: as, b :: bs => fun h => by
    simp only [isPrefixB, Bool.and_eq_true] at h
    simpa using isPrefixB_length h.2

/-- A prefix of equal length is the whole. -/
theorem isPrefixB_eq_of_length : ∀ {s t : Str},
    isPrefixB s t = true → s.length = t.length → s = t
  | [], [] => fun _ _ => rfl
  | [], _ :: _ => fun _ h => by simp at h
  | _ :: _, [] => fun h _ => by simp [isPrefixB] at h
  | a :: as, b :: bs => fun h hl => by
    simp only [isPrefixB, Bool.and_eq_true, decide_eq_true_eq] at h
    simp only [List.length_cons, Nat.succ.injEq] at hl
    rw [h.1, isPrefixB_eq_of_length h.2 hl]

/-- A substring is at most as long as the whole. -/
theorem isSubstr_length {s : Str} : ∀ {t : Str}, isSubstr s t = true → s.length ≤ t.length
  | [], h => by
    simp only [isSubstr] at h
    exact isPrefixB_length h
  | c :: rest, h => by
    simp only [isSubstr, Bool.or_eq_true] at h
    rcases h with h | h
    · exact isPrefixB_length h
    · exact Nat.le_trans (isSubstr_length h) (by simp)

/-- A substring of equal length is the whole. -/
theorem isSubstr_eq_of_length {s : Str} : ∀ {t : Str},
    isSubstr s t = true → s.length = t.length → s = t
  | [], h, hl => isPrefixB_eq_of_length (by simpa [isSubstr] using h) hl
  | c :: rest, h, hl => by
    simp only [isSubstr, Bool.or_eq_true] at h
    rcases h with h | h
    · exact isPrefixB_eq_of_length h hl
    · have := isSubstr_length h
      simp only [List.length_cons] at hl
      omega

end BasicLemmas

section DeduplicatorLemmas

/-! ## Lemmas about the Deduplicator -/

/-- The substring-removal loop keeps a sublist of its input. -/
theorem rsAux_sublist : ∀ (l prev : List Str), (rsAux prev l).Sublist l
  | [], _ => List.Sublist.refl _
  | s :: rest, prev => by
    simp only [rsAux]
    split
    · exact (rsAux_sublist rest (prev ++ [s])).trans (List.sublist_cons_self s rest)
    · exact List.Sublist.cons₂ s (rsAux_sublist rest (prev ++ [s]))

/-- A skill kept by the substring-removal loop run on a length-sorted list
passes `dropTest` against every strictly longer element of the list (and of
the already-processed prefix). -/
theorem rsAux_no_drop : ∀ (l prev : List Str),
    List.Pairwise lenGeRel l →
    ∀ x ∈ rsAux prev l, ∀ y ∈ prev ++ l, x.length < y.length →
    dropTest x y = false
  | [], prev => by
    intro _ x hx
    simp [rsAux] at hx
  | s :: rest, prev => by
    intro hpw x hx y hy hlen
    rw [List.pairwise_cons] at hpw
    obtain ⟨hs, hrest⟩ := hpw
    have hy' : y ∈ (prev ++ [s]) ++ rest := by
      simp only [List.mem_append, List.mem_cons, List.mem_singleton] at hy ⊢
      tauto
    simp only [rsAux] at hx
    by_cases hc : prev.any (fun t => dropTest s t) = true
    · rw [if_pos hc] at hx
      exact rsAux_no_drop rest (prev ++ [s]) hrest x hx y hy' hlen
    · rw [if_neg hc] at hx
      rcases List.mem_cons.mp hx with rfl | hx'
      · rcases List.mem_append.mp hy with hyp | hyr
        · have hcf : prev.any (fun t => dropTest x t) = false := by
            simpa using hc
          simpa using List.any_eq_false.mp hcf y hyp
        · rcases List.mem_cons.mp hyr with rfl | hyr'
          · omega
          · have := hs y hyr'
            exact absurd hlen (by unfold lenGeRel at this; omega)
      · exact rsAux_no_drop rest (prev ++ [s]) hrest x hx' y hy' hlen

/-- When no element of the list passes `dropTest` against any other element
(or any element of the processed prefix), the substring-removal loop keeps
everything. -/
theorem rsAux_eq_self : ∀ (l prev : List Str),
    (∀ s ∈ l, ∀ t ∈ prev ++ l, dropTest s t = false) → rsAux prev l = l
  | [], _ => fun _ => rfl
  | s :: rest, prev => fun h => by
    have hcf : prev.any (fun t => dropTest s t) = false :=
      List.any_eq_false.mpr (fun t ht => by
        simp [h s (List.mem_cons_self s rest) t (List.mem_append.mpr (Or.inl ht))])
    have hstep : rsAux prev (s :: rest) = s :: rsAux (prev ++ [s]) rest := by
      simp [rsAux, hcf]
    rw [hstep]
    congr 1
    refine rsAux_eq_self rest (prev ++ [s]) (fun s' hs' t ht => ?_)
    refine h s' (List.mem_cons_of_mem s hs') t ?_
    simp only [List.mem_append, List.mem_cons, List.mem_singleton] at ht ⊢
    tauto

/-- Every element of `deduplicate syn skills` comes from the
synonym-merged, case-deduplicated stage. -/
theorem mem_of_mem_deduplicate {syn : SynMap} {skills : List Str} {e : Str}
    (h : e ∈ deduplicate syn skills) :
    e ∈ mergeSynonyms syn (uniqueLower skills) := by
  unfold deduplicate at h
  split at h
  · simp at h
  · have h1 := (sortLex_perm _).mem_iff.mp h
    unfold removeSubstrings at h1
    have h2 := (rsAux_sublist _ _).subset h1
    exact (sortLenDesc_perm _).mem_iff.mp h2

/-- `canonicalize` either returns the lowercased main term of a synonym-map
entry or leaves the skill unchanged. -/
theorem canonicalize_cases (syn : SynMap) (x : Str) :
    (∃ p ∈ syn, canonicalize syn x = low p.1) ∨ canonicalize syn x = x := by
  cases hf : syn.find? (fun e => x == low e.1 || (e.2.map low).contains x) with
  | none =>
    right
    unfold canonicalize findCanonical
    rw [hf]
    rfl
  | some p =>
    left
    refine ⟨p, List.mem_of_find?_eq_some hf, ?_⟩
    unfold canonicalize findCanonical
    rw [hf]
    rfl

/-- Membership in `mergeSynonyms`. -/
theorem mem_mergeSynonyms {syn : SynMap} {L : List Str} {e : Str}
    (h : e ∈ mergeSynonyms syn L) : ∃ x ∈ L, e = canonicalize syn x := by
  obtain ⟨x, hx, hxe⟩ := List.mem_map.mp (List.mem_dedup.mp h)
  exact ⟨x, hx, hxe.symm⟩

/-- Membership in `uniqueLower`. -/
theorem mem_uniqueLower {L : List Str} {e : Str}
    (h : e ∈ uniqueLower L) : ∃ v ∈ L, e = low v := by
  obtain ⟨v, hv, hve⟩ := List.mem_map.mp (List.mem_dedup.mp h)
  exact ⟨v, hv, hve.symm⟩

/-- Every element of a deduplication result is already lowercase. -/
theorem low_fixed_of_mem_deduplicate {syn : SynMap} {skills : List Str} {e : Str}
    (h : e ∈ deduplicate syn skills) : low e = e := by
  obtain ⟨x, hx, he⟩ := mem_mergeSynonyms (mem_of_mem_deduplicate h)
  obtain ⟨v, _, hxv⟩ := mem_uniqueLower hx
  rcases canonicalize_cases syn x with ⟨p, _, hc⟩ | hc
  · rw [he, hc]
    exact low_idem _
  · rw [he, hc, hxv]
    exact low_idem _

/-- Under the fixed-canonical-terms condition, every element of a
deduplication result is a fixed point of `canonicalize`. -/
theorem canonicalize_fixed_of_mem_deduplicate {syn : SynMap} {skills : List Str}
    {e : Str} (hsyn : ∀ p ∈ syn, canonicalize syn (low p.1) = low p.1)
    (h : e ∈ deduplicate syn skills) : canonicalize syn e = e := by
  obtain ⟨x, hx, he⟩ := mem_mergeSynonyms (mem_of_mem_deduplicate h)
  rcases canonicalize_cases syn x with ⟨p, hp, hc⟩ | hc
  · rw [he, hc]
    exact hsyn p hp
  · rw [he, hc]
    exact hc

/-- A deduplication result has no duplicates. -/
theorem deduplicate_nodup (syn : SynMap) (skills : List Str) :
    (deduplicate syn skills).Nodup := by
  unfold deduplicate
  split
  · exact List.nodup_nil
  · refine (sortLex_perm _).symm.nodup ?_
    unfold removeSubstrings
    refine (rsAux_sublist _ _).nodup ?_
    exact (sortLenDesc_perm _).symm.nodup (List.nodup_dedup _)

end DeduplicatorLemmas

section Claim1

/-- C1: on a synonym map that maps neither input (here the empty map),
deduplicating `["python", "python programming"]` yields
`["python programming"]`, but deduplicating `["sales", "sales manager"]`
drops `"sales"` as well — its word set `{sales}` is a subset of
`{sales, manager}` — contrary to the claim (and to the source's own inline
comment) that both are kept. -/
theorem claim1_dedup_drops_sales :
    deduplicate [] ["python".data, "python programming".data]
      = ["python programming".data] ∧
    deduplicate [] ["sales".data, "sales manager".data]
      = ["sales manager".data] ∧
    deduplicate [] ["sales".data, "sales manager".data]
      ≠ ["sales".data, "sales manager".data] := by
  refine ⟨by decide, by decide, by decide⟩

end Claim1

section Claim5

/-- C5 counterexample: with the synonym map
`{"c": ["b"], "b": ["a"]}` (main term `"b"` is an alternate of `"c"`),
`deduplicate ["a"] = ["b"]` but `deduplicate (deduplicate ["a"]) = ["c"]`,
so deduplication is not idempotent for every synonym map. -/
theorem claim5_counterexample :
    deduplicate synChain ["a".data] = ["b".data] ∧
    deduplicate synChain (deduplicate synChain ["a".data]) = ["c".data] ∧
    deduplicate synChain (deduplicate synChain ["a".data])
      ≠ deduplicate synChain ["a".data] := by
  refine ⟨by decide, by decide, by decide⟩

/-- C5 (amended): deduplication is idempotent for every input list provided
every lowercased main term of the synonym map is itself a fixed point of
canonicalization (in particular for the empty map and for any map whose
main terms are not alternates of other entries). -/
theorem claim5_dedup_idempotent (syn : SynMap)
    (hsyn : ∀ p ∈ syn, canonicalize syn (low p.1) = low p.1)
    (skills : List Str) :
    deduplicate syn (deduplicate syn skills) = deduplicate syn skills := by
  by_cases hD : (deduplicate syn skills).isEmpty = true
  · have hnil : deduplicate syn skills = [] := by simpa using hD
    rw [hnil]
    rfl
  · by_cases hS : skills.isEmpty = true
    · exact absurd (by rw [show deduplicate syn skills = [] from by
        unfold deduplicate; rw [if_pos hS]]; rfl) hD
    · set D := deduplicate syn skills with hDdef
      set M := mergeSynonyms syn (uniqueLower skills) with hMdef
      have hDX : D = sortLex (rsAux [] (sortLenDesc M)) := by
        rw [hDdef]
        unfold deduplicate removeSubstrings
        rw [if_neg hS]
      have hnd : D.Nodup := deduplicate_nodup syn skills
      have hULD : uniqueLower D = D := by
        unfold uniqueLower
        rw [List.map_congr_left
          (fun e he => (low_fixed_of_mem_deduplicate (hDdef ▸ he) : low e = e))]
        rw [List.map_id', List.dedup_eq_self.mpr hnd]
      have hMS : mergeSynonyms syn D = D := by
        unfold mergeSynonyms
        rw [List.map_congr_left
          (fun e he => (canonicalize_fixed_of_mem_deduplicate hsyn (hDdef ▸ he) :
            canonicalize syn e = e))]
        rw [List.map_id', List.dedup_eq_self.mpr hnd]
      have hmemX : ∀ x ∈ D, x ∈ rsAux [] (sortLenDesc M) := by
        intro x hx
        rw [hDX] at hx
        exact (sortLex_perm _).mem_iff.mp hx
      have hpairs : ∀ x ∈ D, ∀ y ∈ D, dropTest x y = false := by
        intro x hx y hy
        rcases Nat.lt_trichotomy x.length y.length with hlt | heq | hgt
        · refine rsAux_no_drop (sortLenDesc M) [] ?_ x (hmemX x hx) y ?_ hlt
          · exact sortLenDesc_sorted M
          · simpa using (rsAux_sublist _ _).subset (hmemX y hy)
        · by_contra hne
          have hdt : dropTest x y = true := by
            cases hb : dropTest x y
            · exact absurd hb hne
            · rfl
          simp only [dropTest, Bool.and_eq_true, decide_eq_true_eq] at hdt
          exact hdt.1.2 (isSubstr_eq_of_length hdt.1.1 heq)
        · by_contra hne
          have hdt : dropTest x y = true := by
            cases hb : dropTest x y
            · exact absurd hb hne
            · rfl
          simp only [dropTest, Bool.and_eq_true, decide_eq_true_eq] at hdt
          have := isSubstr_length hdt.1.1
          omega
      have hRS : rsAux [] (sortLenDesc D) = sortLenDesc D := by
        refine rsAux_eq_self (sortLenDesc D) [] (fun s hs t ht => ?_)
        simp only [List.nil_append] at ht
        exact hpairs s ((sortLenDesc_perm D).mem_iff.mp hs) t
          ((sortLenDesc_perm D).mem_iff.mp ht)
      show deduplicate syn D = D
      unfold deduplicate removeSubstrings
      rw [if_neg hD, hULD, hMS, hRS]
      have hperm : (sortLenDesc D).Perm (rsAux [] (sortLenDesc M)) := by
        refine (sortLenDesc_perm D).trans ?_
        rw [hDX]
        exact sortLex_perm _
      rw [sortLex_eq_of_perm hperm]
      exact hDX.symm

/-- C5 witness: the amended idempotence theorem applied to the concrete
synonym map `{"microsoft office": ["ms office"]}` and the concrete input
`["ms office", "microsoft office"]`. -/
theorem claim5_witness :
    (∀ p ∈ synMsOffice, canonicalize synMsOffice (low p.1) = low p.1) ∧
    deduplicate synMsOffice
        (deduplicate synMsOffice ["ms office".data, "microsoft office".data])
      = deduplicate synMsOffice ["ms office".data, "microsoft office".data] :=
  ⟨by decide, claim5_dedup_idempotent synMsOffice (by decide) _⟩

end Claim5

namespace EnhancedEducationExtractor

/-! ## Lemmas about the education extractor -/

/-- When the primary level is present, the fallback step keeps it. -/
theorem applyLLMFallback_fst_some (d : EduDeps) (lv : Str) (m0 : Option Str) :
    (applyLLMFallback d (some lv) m0).1 = some lv := by
  unfold applyLLMFallback
  by_cases hm : m0.isNone = true
  · rw [if_pos (by simp [hm])]
    simp
  · rw [if_neg (by simp [hm])]

/-- When the primary level is absent, the fallback step takes the language
model's level. -/
theorem applyLLMFallback_fst_none (d : EduDeps) (m0 : Option Str) :
    (applyLLMFallback d none m0).1 = (extractWithLLM d).1 := by
  unfold applyLLMFallback
  rw [if_pos (by simp)]
  simp

/-- The level after the fallback step is the primary level or the language
model's level. -/
theorem applyLLMFallback_fst (d : EduDeps) (l0 m0 : Option Str) :
    (applyLLMFallback d l0 m0).1 = l0 ∨
    (applyLLMFallback d l0 m0).1 = (extractWithLLM d).1 := by
  cases l0 with
  | some lv => exact Or.inl (applyLLMFallback_fst_some d lv m0)
  | none => exact Or.inr (applyLLMFallback_fst_none d m0)

/-- On nonempty text, the level field of `extract` is the level after the
fallback step. -/
theorem extract_fst (d : EduDeps) (text : Str) (h : text.isEmpty = false) :
    (extract d text).1 =
      (applyLLMFallback d (extractLevelEnhanced (low text))
        (d.majorEnhanced text)).1 := by
  unfold extract
  rw [if_neg (by simp [h])]

/-- The language model's level contribution is `none` or a parsed answer. -/
theorem extractWithLLM_fst (d : EduDeps) :
    (extractWithLLM d).1 = none ∨
    ∃ lt, (extractWithLLM d).1 = parseLLMLevel lt := by
  cases hl : d.llmGen with
  | none =>
    left
    unfold extractWithLLM
    rw [hl]
  | some p =>
    right
    refine ⟨p.1, ?_⟩
    unfold extractWithLLM
    rw [hl]

/-- A level produced by the pattern cascade is one of the five labels. -/
theorem levelFromPatterns_mem {t : Str} {lv : Str}
    (h : levelFromPatterns t = some lv) : lv ∈ levelLabels := by
  unfold levelFromPatterns at h
  obtain ⟨e, hfind, he⟩ := Option.map_eq_some'.mp h
  have hmem := List.mem_of_find?_eq_some hfind
  rw [← he]
  unfold levelPatterns at hmem
  simp only [List.mem_cons, List.not_mem_nil, or_false] at hmem
  rcases hmem with rfl | rfl | rfl | rfl | rfl <;> decide

/-- A level produced by context inference is one of the five labels. -/
theorem degreeContextLevel_mem {t : Str} {lv : Str}
    (h : degreeContextLevel t = some lv) : lv ∈ levelLabels := by
  unfold degreeContextLevel at h
  repeat' split at h
  all_goals
    first
    | exact Option.noConfusion h
    | (rw [← Option.some_inj.mp h]; decide)

/-- A level produced by the keyword parsing of the language model's answer
is one of the five labels. -/
theorem parseLLMLevelKeywords_mem {t : Str} {lv : Str}
    (h : parseLLMLevelKeywords t = some lv) : lv ∈ levelLabels := by
  unfold parseLLMLevelKeywords at h
  repeat' split at h
  all_goals
    first
    | exact Option.noConfusion h
    | (rw [← Option.some_inj.mp h]; decide)

/-- A level produced by `parseLLMLevel` is one of the five labels. -/
theorem parseLLMLevel_mem {resp : Str} {lv : Str}
    (h : parseLLMLevel resp = some lv) : lv ∈ levelLabels :=
  parseLLMLevelKeywords_mem h

/-- A level produced by the full cascade is one of the five labels. -/
theorem extractLevelEnhanced_mem {t : Str} {lv : Str}
    (h : extractLevelEnhanced t = some lv) : lv ∈ levelLabels := by
  unfold extractLevelEnhanced at h
  cases hfp : levelFromPatterns t with
  | some lv2 =>
    rw [hfp] at h
    dsimp only at h
    rw [← Option.some_inj.mp h]
    exact levelFromPatterns_mem hfp
  | none =>
    rw [hfp] at h
    dsimp only at h
    cases hdc : degreeContextLevel t with
    | some lv2 =>
      rw [hdc] at h
      dsimp only at h
      rw [← Option.some_inj.mp h]
      exact degreeContextLevel_mem hdc
    | none =>
      rw [hdc] at h
      dsimp only at h
      split at h
      · rw [← Option.some_inj.mp h]
        decide
      · exact Option.noConfusion h

end EnhancedEducationExtractor

section Claim2

/-- C2: `RegexMatcher._load_skills_database` opens the vocabulary file with
no exception handler (unlike `Validator._load_blacklist` and
`Deduplicator._load_synonyms`), so constructing the matcher with the file
absent propagates `FileNotFoundError` instead of degrading to an empty
vocabulary.  `extract` on an empty vocabulary would indeed return the empty
list for every text — but that state is never reached. -/
theorem claim2_regex_matcher_init_raises :
    RegexMatcher.init none = Except.error RegexMatcher.LoadError.fileNotFound ∧
    (∀ text : Str, RegexMatcher.extract [] text = []) := by
  refine ⟨rfl, fun text => ?_⟩
  unfold RegexMatcher.extract
  split <;> rfl

end Claim2

section Claim7

/-- C7: with vocabulary `{"c++", "sql"}`, extracting from
`"Experience with C++ and SQL required"` returns both terms ("c++" through
the whitespace/punctuation boundary pattern, "sql" through `\b` anchors). -/
theorem claim7_cpp_sql_matched :
    "c++".data ∈ RegexMatcher.extract ["c++".data, "sql".data]
      "Experience with C++ and SQL required".data ∧
    "sql".data ∈ RegexMatcher.extract ["c++".data, "sql".data]
      "Experience with C++ and SQL required".data ∧
    RegexMatcher.extract ["c++".data, "sql".data]
      "Experience with C++ and SQL required".data
      = ["c++".data, "sql".data] := by
  refine ⟨by decide, by decide, by decide⟩

end Claim7

section Claim8

/-- C8: on empty input text both public entry points return the neutral
result immediately, independently of every strategy, resource and external
capability (the dependency records are universally quantified, so no
strategy output can influence the result). -/
theorem claim8_empty_input (sd : EnhancedSkillsExtractor.SkillsDeps)
    (ed : EnhancedEducationExtractor.EduDeps) :
    EnhancedSkillsExtractor.extract sd [] = [] ∧
    EnhancedEducationExtractor.extract ed [] = (none, none) :=
  ⟨rfl, rfl⟩

/-- C8 witness: the empty-input theorem at concrete dependencies. -/
theorem claim8_witness :
    EnhancedSkillsExtractor.extract skillsDepsEmpty [] = [] ∧
    EnhancedEducationExtractor.extract eduDepsNone [] = (none, none) :=
  claim8_empty_input skillsDepsEmpty eduDepsNone

end Claim8

section Claim6

open EnhancedEducationExtractor in
/-- C6: whenever the level field of the education result is present, it is
one of the five fixed labels — also when it came from parsing the language
model's free-text answer. -/
theorem claim6_level_in_fixed_labels (d : EduDeps) (text : Str) (lv : Str)
    (h : (EnhancedEducationExtractor.extract d text).1 = some lv) :
    lv ∈ levelLabels := by
  by_cases he : text.isEmpty = true
  · rw [show EnhancedEducationExtractor.extract d text = (none, none) from by
      unfold EnhancedEducationExtractor.extract; rw [if_pos he]] at h
    exact absurd h (by simp)
  · rw [extract_fst d text (by simpa using he)] at h
    rcases applyLLMFallback_fst d (extractLevelEnhanced (low text))
        (d.majorEnhanced text) with hf | hf
    · rw [hf] at h
      exact extractLevelEnhanced_mem h
    · rw [hf] at h
      rcases extractWithLLM_fst d with hw | ⟨lt, hw⟩
      · rw [hw] at h
        exact absurd h (by simp)
      · rw [hw] at h
        exact parseLLMLevel_mem h

open EnhancedEducationExtractor in
/-- C6 witness: the label theorem at concrete input (dependencies with no
major extractor and no language model, text `"bsc"`). -/
theorem claim6_witness :
    (EnhancedEducationExtractor.extract eduDepsNone "bsc".data).1
      = some "bachelor's degree".data ∧
    "bachelor's degree".data ∈ levelLabels :=
  ⟨by decide,
   claim6_level_in_fixed_labels eduDepsNone "bsc".data
     "bachelor's degree".data (by decide)⟩

end Claim6

section Claim10

open EnhancedEducationExtractor in
/-- C10: a text whose lowercasing contains an occurrence of `ba` followed
by a word boundary (for example any word ending in "ba"), and which matches
neither the high-school nor the associate pattern, always resolves the
education level to "bachelor's degree" — the `ba\b` alternative of the
bachelor pattern fires, and the bachelor pattern is checked before the
master/phd patterns. -/
theorem claim10_ba_word_gives_bachelor (t : Str) (d : EduDeps)
    (hba : baWordEnd (low t) = true)
    (hhs : hsPattern (low t) = false)
    (has : associatePattern (low t) = false) :
    extractLevelEnhanced (low t) = some "bachelor's degree".data ∧
    (t.isEmpty = false →
      (EnhancedEducationExtractor.extract d t).1 = some "bachelor's degree".data) := by
  have hbach : bachelorPattern (low t) = true := by
    unfold bachelorPattern
    rw [hba]
    simp
  have hlv : levelFromPatterns (low t) = some "bachelor's degree".data := by
    unfold levelFromPatterns levelPatterns
    rw [List.find?_cons_of_neg _ (by simp [hhs]),
        List.find?_cons_of_neg _ (by simp [has]),
        List.find?_cons_of_pos _ (by simp [hbach])]
    rfl
  have hlev : extractLevelEnhanced (low t) = some "bachelor's degree".data := by
    unfold extractLevelEnhanced
    rw [hlv]
  refine ⟨hlev, fun hne => ?_⟩
  rw [extract_fst d t hne, hlev]
  exact applyLLMFallback_fst_some d _ _

open EnhancedEducationExtractor in
/-- C10 witness: the text `"zumba"` mentions no education requirement but
resolves to "bachelor's degree". -/
theorem claim10_witness :
    baWordEnd (low "zumba".data) = true ∧
    hsPattern (low "zumba".data) = false ∧
    associatePattern (low "zumba".data) = false ∧
    extractLevelEnhanced (low "zumba".data) = some "bachelor's degree".data ∧
    (EnhancedEducationExtractor.extract eduDepsNone "zumba".data).1
      = some "bachelor's degree".data :=
  ⟨by decide, by decide, by decide,
   (claim10_ba_word_gives_bachelor "zumba".data eduDepsNone
     (by decide) (by decide) (by decide)).1,
   (claim10_ba_word_gives_bachelor "zumba".data eduDepsNone
     (by decide) (by decide) (by decide)).2 (by decide)⟩

end Claim10

section Claim4

open EnhancedEducationExtractor in
/-- C4 counterexample: on the text `"bsc"` (with no major extractable and
the language model absent), primary level extraction succeeds, yet the
language-model fallback is still invoked — `if not level or not major:`
triggers on a failed major alone, contradicting the claim that a failed
major with a successful level does not trigger it. -/
theorem claim4_counterexample :
    extractLevelEnhanced (low "bsc".data) = some "bachelor's degree".data ∧
    llmFallbackInvoked eduDepsNone "bsc".data = true := by
  refine ⟨by decide, by decide⟩

open EnhancedEducationExtractor in
/-- C4 (amended): on nonempty text the language-model fallback is invoked
exactly when primary level extraction or primary major extraction produced
no result; when the primary level is present it is kept (the fallback
cannot override it), so the fallback then only serves the major. -/
theorem claim4_fallback_iff_either_failed (d : EduDeps) (text : Str)
    (hne : text.isEmpty = false) :
    (llmFallbackInvoked d text = true ↔
      ((extractLevelEnhanced (low text)).isNone = true ∨
        (d.majorEnhanced text).isNone = true)) ∧
    (∀ lv, extractLevelEnhanced (low text) = some lv →
      (EnhancedEducationExtractor.extract d text).1 = some lv) := by
  constructor
  · unfold llmFallbackInvoked
    simp [hne]
  · intro lv hlv
    rw [extract_fst d text hne, hlv]
    exact applyLLMFallback_fst_some d _ _

open EnhancedEducationExtractor in
/-- C4 witness: the amended theorem at the concrete input `"bsc"`. -/
theorem claim4_witness :
    (llmFallbackInvoked eduDepsNone "bsc".data = true ↔
      ((extractLevelEnhanced (low "bsc".data)).isNone = true ∨
        (eduDepsNone.majorEnhanced "bsc".data).isNone = true)) ∧
    (EnhancedEducationExtractor.extract eduDepsNone "bsc".data).1
      = some "bachelor's degree".data :=
  ⟨(claim4_fallback_iff_either_failed eduDepsNone "bsc".data (by decide)).1,
   (claim4_fallback_iff_either_failed eduDepsNone "bsc".data (by decide)).2
     "bachelor's degree".data (by decide)⟩

end Claim4

namespace EnhancedSkillsExtractor

/-! ## Lemmas about the Aggregator -/

/-- The keys after a dict insertion do not depend on the inserted weight. -/
theorem upsert_map_fst (k : Str) (w : Nat) : ∀ (l : List (Str × Nat)),
    (upsert k w l).map Prod.fst = keyInsert (l.map Prod.fst) k
  | [] => by simp [upsert, keyInsert]
  | p :: rest => by
    by_cases hk : p.1 = k
    · subst hk
      simp [upsert, keyInsert]
    · have hne : ¬(k = p.1) := fun h => hk h.symm
      by_cases hm : k ∈ rest.map Prod.fst
      · simp [upsert, keyInsert, hk, hm, hne, upsert_map_fst k w rest]
      · simp [upsert, keyInsert, hk, hm, hne, upsert_map_fst k w rest]

/-- The keys after inserting one strategy's skills do not depend on the
weight. -/
theorem foldl_upsert_map_fst (w : Nat) : ∀ (skills : List Str) (sc : List (Str × Nat)),
    ((skills.foldl (fun sc2 sk => upsert (low sk) w sc2) sc).map Prod.fst)
      = skills.foldl (fun ks sk => keyInsert ks (low sk)) (sc.map Prod.fst)
  | [], _ => rfl
  | sk :: rest, sc => by
    simp only [List.foldl_cons]
    rw [foldl_upsert_map_fst w rest (upsert (low sk) w sc), upsert_map_fst]

/-- The key list of the aggregated score dict, for any weight table, is
`aggregateKeys`. -/
theorem aggregateScores_foldl_fst (weights : Str → Nat) :
    ∀ (results : List (Str × List Str)) (sc : List (Str × Nat)),
    ((results.foldl
        (fun sc r => r.2.foldl (fun sc2 sk => upsert (low sk) (weights r.1) sc2) sc)
        sc).map Prod.fst)
      = results.foldl
          (fun ks r => r.2.foldl (fun ks2 sk => keyInsert ks2 (low sk)) ks)
          (sc.map Prod.fst)
  | [], _ => rfl
  | r :: rest, sc => by
    simp only [List.foldl_cons]
    rw [aggregateScores_foldl_fst weights rest _, foldl_upsert_map_fst]

/-- `aggregateScores` keys are weight-independent. -/
theorem aggregateScores_map_fst (weights : Str → Nat)
    (results : List (Str × List Str)) :
    (aggregateScores weights results).map Prod.fst = aggregateKeys results := by
  unfold aggregateScores aggregateKeys
  simpa using aggregateScores_foldl_fst weights results []

/-- Membership after one key insertion. -/
theorem mem_keyInsert {a k : Str} {ks : List Str} :
    a ∈ keyInsert ks k ↔ a ∈ ks ∨ a = k := by
  unfold keyInsert
  split
  · constructor
    · exact Or.inl
    · rintro (h1 | rfl)
      · exact h1
      · assumption
  · simp

/-- Membership after inserting one strategy's skills. -/
theorem mem_foldl_keyInsert :
    ∀ (skills : List Str) (ks : List Str) (a : Str),
    (a ∈ skills.foldl (fun ks2 sk => keyInsert ks2 (low sk)) ks ↔
      a ∈ ks ∨ ∃ sk ∈ skills, a = low sk)
  | [], ks, a => by simp
  | sk :: rest, ks, a => by
    simp only [List.foldl_cons]
    rw [mem_foldl_keyInsert rest _ a, mem_keyInsert]
    simp only [List.mem_cons]
    constructor
    · rintro ((h | h) | ⟨sk2, h2, h3⟩)
      · exact Or.inl h
      · exact Or.inr ⟨sk, Or.inl rfl, h⟩
      · exact Or.inr ⟨sk2, Or.inr h2, h3⟩
    · rintro (h | ⟨sk2, (rfl | h2), h3⟩)
      · exact Or.inl (Or.inl h)
      · exact Or.inl (Or.inr h3)
      · exact Or.inr ⟨sk2, h2, h3⟩

/-- Membership in the aggregated key list. -/
theorem mem_aggregateKeys_foldl :
    ∀ (results : List (Str × List Str)) (ks : List Str) (a : Str),
    (a ∈ results.foldl
        (fun ks r => r.2.foldl (fun ks2 sk => keyInsert ks2 (low sk)) ks) ks ↔
      a ∈ ks ∨ ∃ r ∈ results, ∃ sk ∈ r.2, a = low sk)
  | [], ks, a => by simp
  | r :: rest, ks, a => by
    simp only [List.foldl_cons]
    rw [mem_aggregateKeys_foldl rest _ a, mem_foldl_keyInsert]
    simp only [List.mem_cons]
    constructor
    · rintro ((h | h) | ⟨r2, h2, h3⟩)
      · exact Or.inl h
      · exact Or.inr ⟨r, Or.inl rfl, h⟩
      · exact Or.inr ⟨r2, Or.inr h2, h3⟩
    · rintro (h | ⟨r2, (rfl | h2), h3⟩)
      · exact Or.inl (Or.inl h)
      · exact Or.inl (Or.inr h3)
      · exact Or.inr ⟨r2, h2, h3⟩

end EnhancedSkillsExtractor

section Claim9

open EnhancedSkillsExtractor in
/-- C9: the fused output of the Aggregator is exactly the set of unique
lowercased strings proposed by at least one strategy; it carries no scores
(its type is a bare string list) and, as the second conjunct states, its
value is the key list of the score dict for ANY weight table — membership
is independent of the per-strategy trust weights. -/
theorem claim9_fusion_weight_independent (results : List (Str × List Str))
    (weights : Str → Nat) (s : Str) :
    (s ∈ aggregateResults results ↔ ∃ r ∈ results, ∃ sk ∈ r.2, s = low sk) ∧
    aggregateResults results = (aggregateScores weights results).map Prod.fst := by
  constructor
  · unfold aggregateResults
    rw [aggregateScores_map_fst]
    unfold aggregateKeys
    rw [mem_aggregateKeys_foldl]
    simp
  · unfold aggregateResults
    rw [aggregateScores_map_fst, aggregateScores_map_fst]

open EnhancedSkillsExtractor in
/-- C9 witness: the fusion theorem at a concrete strategy table and a
degenerate weight table. -/
theorem claim9_witness :
    ("python".data ∈
        aggregateResults [("regex".data, ["Python".data]), ("ner".data, [])] ↔
      ∃ r ∈ [("regex".data, ["Python".data]), ("ner".data, [])],
        ∃ sk ∈ r.2, "python".data = low sk) ∧
    aggregateResults [("regex".data, ["Python".data]), ("ner".data, [])]
      = (aggregateScores (fun _ => 0)
          [("regex".data, ["Python".data]), ("ner".data, [])]).map Prod.fst :=
  claim9_fusion_weight_independent
    [("regex".data, ["Python".data]), ("ner".data, [])] (fun _ => 0) "python".data

end Claim9

section NormalizerLemmas

/-! ## Lemmas about whitespace handling and the Normalizer -/

/-- The first character surviving `dropWhile p` fails `p`. -/
theorem dropWhile_head?_false {p : Char → Bool} :
    ∀ {l : Str} {c : Char}, (l.dropWhile p).head? = some c → p c = false
  | [], c => by simp
  | a :: as, c => fun h => by
    rw [List.dropWhile_cons] at h
    split at h
    · exact dropWhile_head?_false h
    · simp only [List.head?_cons, Option.some_inj] at h
      subst h
      rename_i hpa
      simpa using hpa

/-- A list whose head fails `p` is unchanged by `dropWhile p`. -/
theorem dropWhile_eq_self_of {p : Char → Bool} :
    ∀ {l : Str}, (∀ c, l.head? = some c → p c = false) → l.dropWhile p = l
  | [], _ => rfl
  | a :: as, h => by
    rw [List.dropWhile_cons, if_neg (by simp [h a rfl])]

/-- `dropWhile` is idempotent. -/
theorem dropWhile_idem {p : Char → Bool} (l : Str) :
    List.dropWhile p (List.dropWhile p l) = List.dropWhile p l :=
  dropWhile_eq_self_of (fun _ hc => dropWhile_head?_false hc)

/-- `stripWs s` is a prefix of `s.dropWhile isWsChar`. -/
theorem stripWsPre (s : Str) :
    (stripWs s) <+: (s.dropWhile isWsChar) := by
  unfold stripWs
  have h := List.dropWhile_suffix (l := (s.dropWhile isWsChar).reverse) isWsChar
  have h2 := List.reverse_prefix.mpr h
  rwa [List.reverse_reverse] at h2

/-- The first character of a stripped string is not whitespace. -/
theorem stripWs_head?_false {s : Str} {c : Char}
    (h : (stripWs s).head? = some c) : isWsChar c = false := by
  obtain ⟨t, ht⟩ := stripWsPre s
  cases hs : stripWs s with
  | nil => rw [hs] at h; exact absurd h (by simp)
  | cons a r =>
    rw [hs] at h ht
    simp only [List.head?_cons, Option.some_inj] at h
    subst h
    exact dropWhile_head?_false (l := s) (by rw [← ht]; rfl)

/-- `stripWs` is idempotent. -/
theorem stripWs_idem (s : Str) : stripWs (stripWs s) = stripWs s := by
  have h1 : (stripWs s).dropWhile isWsChar = stripWs s :=
    dropWhile_eq_self_of (fun _ hc => stripWs_head?_false hc)
  show (((stripWs s).dropWhile isWsChar).reverse.dropWhile isWsChar).reverse
      = stripWs s
  rw [h1]
  have h2 : (stripWs s).reverse
      = (s.dropWhile isWsChar).reverse.dropWhile isWsChar := by
    unfold stripWs
    rw [List.reverse_reverse]
  rw [h2, dropWhile_idem]
  rfl

/-- Characters of a stripped string come from the string. -/
theorem stripWs_subset (s : Str) : ∀ c ∈ stripWs s, c ∈ s := fun _ hc =>
  (List.dropWhile_sublist isWsChar).subset ((stripWsPre s).sublist.subset hc)

/-- Characters of a whitespace-collapsed string come from the string or are
the space character. -/
theorem mem_collapseWsAux : ∀ (b : Bool) (s : Str), ∀ c ∈ collapseWsAux b s, c ∈ s ∨ c = ' '
  | _, [] => by simp [collapseWsAux]
  | b, a :: rest => by
    intro c hc
    unfold collapseWsAux at hc
    by_cases ha : isWsChar a = true
    · rw [if_pos ha] at hc
      by_cases hb : b = true
      · rw [if_pos hb] at hc
        rcases mem_collapseWsAux true rest c hc with h | h
        · exact Or.inl (List.mem_cons_of_mem a h)
        · exact Or.inr h
      · rw [if_neg hb] at hc
        rcases List.mem_cons.mp hc with rfl | hc2
        · exact Or.inr rfl
        · rcases mem_collapseWsAux true rest c hc2 with h | h
          · exact Or.inl (List.mem_cons_of_mem a h)
          · exact Or.inr h
    · rw [if_neg ha] at hc
      rcases List.mem_cons.mp hc with rfl | hc2
      · exact Or.inl (List.mem_cons_self _ _)
      · rcases mem_collapseWsAux false rest c hc2 with h | h
        · exact Or.inl (List.mem_cons_of_mem a h)
        · exact Or.inr h

/-- Characters of a whitespace-collapsed string come from the string or are
the space character. -/
theorem mem_collapseWs (s : Str) : ∀ c ∈ collapseWs s, c ∈ s ∨ c = ' ' :=
  mem_collapseWsAux false s

/-- The output of `normalize_text` is already lowercase. -/
theorem low_normalizeText (x : Str) : low (normalizeText x) = normalizeText x := by
  unfold normalizeText
  split
  · rfl
  · refine low_fixed_of_mem (fun c hc => ?_)
    rcases mem_collapseWs (low x) c (stripWs_subset _ c hc) with h | h
    · obtain ⟨c0, _, hc0⟩ := List.mem_map.mp h
      rw [← hc0]
      exact lowerChar_idem c0
    · rw [h]
      decide

/-- The output of `normalize_text` is already stripped. -/
theorem stripWs_normalizeText (x : Str) :
    stripWs (normalizeText x) = normalizeText x := by
  unfold normalizeText
  split
  · rfl
  · exact stripWs_idem _

/-- Membership in the Normalizer's output. -/
theorem mem_normalize {L : List Str} {v : Str} (h : v ∈ Normalizer.normalize L) :
    ∃ sk ∈ L, v = normalizeText (cleanSkill sk) ∧ 2 ≤ v.length := by
  unfold Normalizer.normalize at h
  have h1 := List.mem_dedup.mp ((sortLex_perm _).mem_iff.mp h)
  obtain ⟨sk, hsk, hf⟩ := List.mem_filterMap.mp h1
  refine ⟨sk, hsk, ?_⟩
  dsimp only at hf
  split at hf
  · exact absurd hf (by simp)
  · simp only [Option.some_inj] at hf
    subst hf
    constructor
    · rfl
    · rename_i hcond
      simp only [Bool.or_eq_true, decide_eq_true_eq, not_or] at hcond
      omega

end NormalizerLemmas

section ValidatorLemmas

/-- A skill accepted by the Validator satisfies the blacklist and length
checks of the Extraction Result invariant (stated for skills that are
already lowercase and stripped, as the Normalizer's outputs are). -/
theorem validCore_of_isValidSkill {bl : List Str} {v : Str}
    (hfix : stripWs (low v) = v)
    (hv : Validator.isValidSkill bl v = true) : validCore bl v = true := by
  simp only [Validator.isValidSkill, hfix] at hv
  by_cases hc1 : v.length < Validator.minSkillLength
  · rw [if_pos hc1] at hv
    exact absurd hv (by simp)
  rw [if_neg hc1] at hv
  by_cases hc2 : Validator.maxSkillLength < v.length
  · rw [if_pos hc2] at hv
    exact absurd hv (by simp)
  rw [if_neg hc2] at hv
  by_cases hc3 : bl.contains v = true
  · rw [if_pos hc3] at hv
    exact absurd hv (by simp)
  rw [if_neg hc3] at hv
  by_cases hc4 : bl.any (fun b => isSubstr b v && decide (5 < b.length)) = true
  · rw [if_pos hc4] at hv
    exact absurd hv (by simp)
  have hb3 : bl.contains v = false := by simpa using hc3
  have hb4 : bl.any (fun b => isSubstr b v && decide (5 < b.length)) = false := by
    simpa using hc4
  unfold validCore
  rw [hb3, hb4]
  simp only [Bool.not_false, Bool.true_and, Bool.and_eq_true, decide_eq_true_eq]
  omega

end ValidatorLemmas

section Claim3

open EnhancedSkillsExtractor in
/-- C3 counterexample: the Deduplicator's synonym canonicalization runs
after the Validator, so a validated entry can be replaced by an unvalidated
canonical main term.  With the synonym map `{longMain: ["python"]}`
(`longMain` is 61 characters, one beyond `MAX_SKILL_LENGTH`), the pipeline
output on text `"x"` contains `longMain`, violating the claimed length
bound. -/
theorem claim3_counterexample :
    longMain ∈ EnhancedSkillsExtractor.extract skillsDepsLongSyn "x".data ∧
    validCore skillsDepsLongSyn.blacklist longMain = false := by
  have heq : EnhancedSkillsExtractor.extract skillsDepsLongSyn "x".data
      = [longMain] := by decide
  refine ⟨by rw [heq]; exact List.mem_cons_self _ _, by decide⟩

open EnhancedSkillsExtractor in
/-- C3 (amended): every entry of the final skill list satisfies the
blacklist and length checks, provided every lowercased canonical main term
of the synonym map itself satisfies them (the pipeline does not re-validate
after synonym canonicalization, so this side condition on the reference
data is needed). -/
theorem claim3_pipeline_invariant (d : SkillsDeps)
    (hsyn : ∀ p ∈ d.synonyms, validCore d.blacklist (low p.1) = true)
    (text e : Str) (he : e ∈ EnhancedSkillsExtractor.extract d text) :
    validCore d.blacklist e = true := by
  unfold EnhancedSkillsExtractor.extract at he
  split at he
  · exact absurd he (by simp)
  · obtain ⟨x, hx, hxe⟩ := mem_mergeSynonyms (mem_of_mem_deduplicate he)
    rcases canonicalize_cases d.synonyms x with ⟨p, hp, hc⟩ | hc
    · rw [hxe, hc]
      exact hsyn p hp
    · obtain ⟨v, hv, hxv⟩ := mem_uniqueLower hx
      unfold Validator.validate at hv
      rw [List.mem_filter] at hv
      obtain ⟨hvN, hvValid⟩ := hv
      obtain ⟨sk, _, hvn, _⟩ := mem_normalize hvN
      have hlowv : low v = v := by
        rw [hvn]
        exact low_normalizeText _
      have hfix : stripWs (low v) = v := by
        rw [hlowv, hvn]
        exact stripWs_normalizeText _
      rw [hxe, hc, hxv, hlowv]
      exact validCore_of_isValidSkill hfix hvValid

open EnhancedSkillsExtractor in
/-- C3 witness: the amended invariant at concrete dependencies (empty
synonym map and blacklist, known-term strategy proposing `"python"`). -/
theorem claim3_witness :
    (∀ p ∈ skillsDepsPython.synonyms,
      validCore skillsDepsPython.blacklist (low p.1) = true) ∧
    "python".data ∈ EnhancedSkillsExtractor.extract skillsDepsPython "x".data ∧
    validCore skillsDepsPython.blacklist "python".data = true := by
  have heq : EnhancedSkillsExtractor.extract skillsDepsPython "x".data
      = ["python".data] := by decide
  refine ⟨by decide, by rw [heq]; exact List.mem_cons_self _ _, ?_⟩
  exact claim3_pipeline_invariant skillsDepsPython (by decide) "x".data
    "python".data (by rw [heq]; exact List.mem_cons_self _ _)

end Claim3

end JobMatching
